import Mathlib

/-!
Shallow embedding of the Libre 2 glucose-monitor protocol layer:
command frame encoding (Libre2Commands.js), key derivation and block
cipher adapter (Libre2Encryption.js), sensor data decoding
(Libre2Reader.js) and reading aggregation (GlucoseMonitor.js).
Bytes are modelled as `Nat` values with explicit `% 256` where the
JavaScript source masks with `& 0xFF` or stores into a `Uint8Array`.
-/

namespace Libre2

/-! ### Command encoder (Libre2Commands.js) -/

/-- `Libre2Commands.getReadMultipleBlocksCommand(startBlock, numBlocks)`:
`numBlocks` is clamped to at most 3, then the frame
`[0x23, startBlock, numBlocks - 1, 0, 0, 0, 0, 0]` is built as a
`Uint8Array`, whose element store wraps each integer modulo 256
(in particular `numBlocks - 1 = -1` wraps to 255). -/
def getReadMultipleBlocksCommand (startBlock numBlocks : Nat) : List Nat :=
  let nb : Nat := if numBlocks > 3 then 3 else numBlocks
  let countByte : Nat := (((nb : Int) - 1) % 256).toNat
  [0x23, startBlock % 256, countByte, 0x00, 0x00, 0x00, 0x00, 0x00]

/-! ### Key derivation engine (Libre2Encryption.js) -/

/-- The substitution table of `Libre2Encryption._transformMACState`,
exactly as written in the source: 48 entries (the source comment notes
that more values "would be here in actual implementation"). -/
def sBox : List Nat :=
  [0x63, 0x7c, 0x77, 0x7b, 0xf2, 0x6b, 0x6f, 0xc5, 0x30, 0x01, 0x67, 0x2b, 0xfe, 0xd7, 0xab, 0x76,
   0xca, 0x82, 0xc9, 0x7d, 0xfa, 0x59, 0x47, 0xf0, 0xad, 0xd4, 0xa2, 0xaf, 0x9c, 0xa4, 0x72, 0xc0,
   0x8c, 0xa1, 0x89, 0x0d, 0xbf, 0xe6, 0x42, 0x68, 0x41, 0x99, 0x2d, 0x0f, 0xb0, 0x54, 0xbb, 0x16]

/-- One byte of the substitution step: `sBox[state[i] % sBox.length]`. -/
def substByte (v : Nat) : Nat := sBox.getD (v % sBox.length) 0

/-- The substitution loop of `_transformMACState`. -/
def substStep (state : List Nat) : List Nat := state.map substByte

/-- The mixing loop of `_transformMACState`:
`state[i] = (temp[i] + temp[(i+1) % 8]) & 0xFF` over a copy `temp`. -/
def mixStep (state : List Nat) : List Nat :=
  (List.range 8).map (fun i => (state.getD i 0 + state.getD ((i + 1) % 8) 0) % 256)

/-- `Libre2Encryption._transformMACState`: substitution, then mixing. -/
def transformMACState (state : List Nat) : List Nat := mixStep (substStep state)

/-- Initial state vector of `Libre2Encryption._calculateMAC`. -/
def macInitState : List Nat := [0x09, 0x76, 0x42, 0x71, 0xF8, 0xC4, 0x46, 0x93]

/-- `Libre2Encryption._calculateMAC`: XOR the initial state with the UID
bytes in reversed order (`state[i] ^= uid[7-i]`), then transform. -/
def calculateMAC (uid : List Nat) : List Nat :=
  transformMACState
    ((List.range 8).map (fun i => Nat.xor (macInitState.getD i 0) (uid.getD (7 - i) 0)))

/-- `Libre2Encryption._generateSeed`: bytes 0..7 are the MAC, bytes 8..15
are `uid[i] ^ mac[i]`, then every byte is mapped through
`((b ^ 0x55) + i) & 0xFF`. -/
def generateSeed (mac uid : List Nat) : List Nat :=
  let base :=
    (List.range 8).map (fun i => mac.getD i 0) ++
    (List.range 8).map (fun i => Nat.xor (uid.getD i 0) (mac.getD i 0))
  base.mapIdx (fun i b => (Nat.xor b 0x55 + i) % 256)

/-- The `keyType` argument of `Libre2Encryption._deriveKey`. -/
inductive KeyType where
  | encrypt
  | decrypt
  deriving DecidableEq, Repr

/-- `keyType === 'encrypt' ? 0x01 : 0x02`. -/
def keyTypeValue : KeyType → Nat
  | .encrypt => 0x01
  | .decrypt => 0x02

/-- The inner loop of one `_deriveKey` round:
`key[i] = ((key[i] + seed[i % 8]) ^ seed[8 + (i % 8)]) & 0xFF`
(each slot reads only its own previous value, so the in-place loop is a
pointwise map). -/
def addMixRound (seed key : List Nat) : List Nat :=
  (List.range 16).map
    (fun i => Nat.xor (key.getD i 0 + seed.getD (i % 8) 0) (seed.getD (8 + i % 8) 0) % 256)

/-- The shift step of one `_deriveKey` round: over a copy `temp`,
`key[i] = temp[(i + round) % 16]`. -/
def rotateRound (round : Nat) (key : List Nat) : List Nat :=
  (List.range 16).map (fun i => key.getD ((i + round) % 16) 0)

/-- `Libre2Encryption._deriveKey`: initialise `key[i] = seed[i] ^ keyTypeValue`
and run 4 rounds of additive mixing followed by the rotation indexed by
the round counter. -/
def deriveKey (seed : List Nat) (kt : KeyType) : List Nat :=
  let d := keyTypeValue kt
  let key0 := (List.range 16).map (fun i => Nat.xor (seed.getD i 0) d)
  (List.range 4).foldl (fun key round => rotateRound round (addMixRound seed key)) key0

/-- Result record of `Libre2Encryption.generateKeys`. -/
structure KeyPair where
  encryptionKey : List Nat
  decryptionKey : List Nat
  mac : List Nat
  deriving DecidableEq, Repr

/-- `Libre2Encryption.generateKeys`: rejects a UID whose length is not 8
(the source throws), otherwise computes MAC, seed and the two keys. -/
def generateKeys (uid : List Nat) : Option KeyPair :=
  if uid.length = 8 then
    let mac := calculateMAC uid
    let seed := generateSeed mac uid
    some { encryptionKey := deriveKey seed .encrypt
           decryptionKey := deriveKey seed .decrypt
           mac := mac }
  else
    none

/-- The key-derivation rounds exactly as the specification words them:
initialise `key[i] = seed[i] XOR discriminator`; four rounds, each
computing all 16 additive updates
`key[i] = ((key[i] + seed[i mod 8]) XOR seed[8 + (i mod 8)]) mod 256`
first and only afterwards cyclically rotating the whole 16-byte array by
the round index. -/
def deriveKeyClaim (seed : List Nat) (disc : Nat) : List Nat :=
  let key0 := seed.map (fun b => Nat.xor b disc)
  (List.range 4).foldl
    (fun key r =>
      (key.mapIdx
        (fun i b => Nat.xor (b + seed.getD (i % 8) 0) (seed.getD (8 + i % 8) 0) % 256)).rotateLeft r)
    key0

/-! ### Block cipher adapter (Libre2Encryption.encrypt / decrypt)

`Libre2Encryption.encrypt` and `decrypt` forward the byte buffer to the
external crypto-js AES implementation configured with CBC mode, a fixed
all-zero initialization vector and `NoPadding`; the AES block core is
library code outside this repository, so it is kept abstract here. -/

/-- Byte-wise XOR of two equal-length blocks (the CBC chaining step). -/
def xorBlock (a b : List Nat) : List Nat := List.zipWith Nat.xor a b

/-- The fixed all-zero 128-bit initialization vector
(`CryptoJS.lib.WordArray.create([0, 0, 0, 0])`). -/
def zeroIV : List Nat := List.replicate 16 0

/-- Modelled from the spec: crypto-js splits the input into 16-byte
blocks, reading bytes past the end of the buffer as 0
(`(u8arr[i] || 0)` in `_uint8ArrayToWordArray` and the flush step of the
block-cipher finalizer zero-extend the final partial block). -/
def toBlocks (data : List Nat) : List (List Nat) :=
  if data = [] then []
  else (data.take 16 ++ List.replicate (16 - data.length) 0) :: toBlocks (data.drop 16)
termination_by data.length
decreasing_by
  simp only [List.length_drop]
  rename_i h
  have : 0 < data.length := List.length_pos.mpr h
  omega

/-- Modelled from the spec: CBC-mode encryption of a block sequence with
block cipher `E`: each plaintext block is XORed with the previous
ciphertext block (initially the IV) before being enciphered. -/
def cbcEncryptBlocks (E : List Nat → List Nat) (prev : List Nat) :
    List (List Nat) → List (List Nat)
  | [] => []
  | b :: bs =>
    let c := E (xorBlock prev b)
    c :: cbcEncryptBlocks E c bs

/-- Modelled from the spec: CBC-mode decryption of a block sequence with
block cipher inverse `D`: each ciphertext block is deciphered and XORed
with the previous ciphertext block (initially the IV). -/
def cbcDecryptBlocks (D : List Nat → List Nat) (prev : List Nat) :
    List (List Nat) → List (List Nat)
  | [] => []
  | c :: cs => xorBlock prev (D c) :: cbcDecryptBlocks D c cs

/-- `Libre2Encryption.encrypt(data, key)`, with the AES-128 block
function under the session key abstracted as `E`: CBC mode, zero IV, no
padding; the crypto-js output is truncated to the input length
(`nBytesReady = min(nWordsReady * 4, sigBytes)`). -/
def encrypt (data : List Nat) (E : List Nat → List Nat) : List Nat :=
  ((cbcEncryptBlocks E zeroIV (toBlocks data)).flatten).take data.length

/-- The error taxonomy the specification assigns to the cipher adapter. -/
inductive CipherError where
  | malformedCiphertext
  deriving DecidableEq, Repr

/-- `Libre2Encryption.decrypt(data, key)`, with the AES-128 inverse block
function under the session key abstracted as `D`. The source performs no
length validation and has no throwing path: every input is forwarded to
the crypto-js CBC layer (zero IV, no padding), which zero-extends a final
partial block and truncates the result to the input length, so the
result is always `Except.ok`. The `Except` wraps the `MalformedCiphertext`
failure the specification claims for wrong-length input. -/
def decrypt (data : List Nat) (D : List Nat → List Nat) :
    Except CipherError (List Nat) :=
  Except.ok (((cbcDecryptBlocks D zeroIV (toBlocks data)).flatten).take data.length)

/-! ### Sensor data decoder (Libre2Reader.js) -/

/-- `DataView.getUint16(off, true)`: 2-byte little-endian read. -/
def readU16LE (buf : List Nat) (off : Nat) : Nat :=
  buf.getD off 0 + 256 * buf.getD (off + 1) 0

/-- `DataView.getUint32(off, true)`: 4-byte little-endian read. -/
def readU32LE (buf : List Nat) (off : Nat) : Nat :=
  buf.getD off 0 + 256 * buf.getD (off + 1) 0 +
    65536 * buf.getD (off + 2) 0 + 16777216 * buf.getD (off + 3) 0

/-- A decoded glucose reading: `timestamp` is the JavaScript `Date`
value in milliseconds (`new Date(timestamp * 1000)`), `glucoseValue` is
the raw little-endian 16-bit word divided by 10. The fixed unit string
is omitted. -/
structure Reading where
  timestamp : Int
  glucoseValue : ℚ
  deriving DecidableEq, Repr

/-- Decode one 6-byte reading slot at byte offset `off`: 4-byte LE
epoch-seconds timestamp and 2-byte LE raw glucose. -/
def slotReading (buf : List Nat) (off : Nat) : Reading :=
  { timestamp := (readU32LE buf off : Int) * 1000
    glucoseValue := (readU16LE buf (off + 4) : ℚ) / 10 }

/-- The slot loop of `Libre2Reader._extractHistoricalReadings`:
`remaining` counts the slots left of the 32, `i` is the slot index.
A slot whose 6 bytes run past the buffer ends the loop (`break`); a slot
with timestamp 0 or above 4294967295, or raw glucose 0, is skipped
(`continue`). -/
def histLoop (buffer : List Nat) : Nat → Nat → List Reading
  | 0, _ => []
  | remaining + 1, i =>
    if 124 + i * 6 + 6 > buffer.length then []
    else if readU32LE buffer (124 + i * 6) = 0 ∨ readU32LE buffer (124 + i * 6) > 4294967295 then
      histLoop buffer remaining (i + 1)
    else if readU16LE buffer (124 + i * 6 + 4) = 0 then
      histLoop buffer remaining (i + 1)
    else
      slotReading buffer (124 + i * 6) :: histLoop buffer remaining (i + 1)

/-- `Libre2Reader._extractHistoricalReadings`: 32 fixed 6-byte slots
starting at byte offset 124. -/
def extractHistoricalReadings (buffer : List Nat) : List Reading :=
  histLoop buffer 32 0

/-- One historical slot as the specification describes it: the slot is
kept unless its timestamp is 0 or out of range or its raw glucose is 0,
in which case it is skipped rather than reported as an error. -/
def histSlotSpec (buffer : List Nat) (i : Nat) : Option Reading :=
  if readU32LE buffer (124 + i * 6) = 0 ∨ readU32LE buffer (124 + i * 6) > 4294967295 ∨
      readU16LE buffer (124 + i * 6 + 4) = 0 then
    none
  else
    some (slotReading buffer (124 + i * 6))

/-- The specification-side description of `historicalReadings`: the kept
readings of the 32 fixed slots, in slot order. -/
def historicalReadingsSpec (buffer : List Nat) : List Reading :=
  (List.range 32).filterMap (histSlotSpec buffer)

/-- The reading loop of `Libre2Reader._parseGlucoseData`: `remaining`
counts down from the declared reading count, `i` is the reading index.
Readings start at offset 10 and are 6 bytes wide; a slot that would run
past the buffer ends the loop (`break`). -/
def parseLoop (data : List Nat) : Nat → Nat → List Reading
  | 0, _ => []
  | remaining + 1, i =>
    if 10 + i * 6 + 6 > data.length then []
    else slotReading data (10 + i * 6) :: parseLoop data remaining (i + 1)

/-- `Libre2Reader._parseGlucoseData`: returns an empty list when the
buffer is shorter than 16 bytes; otherwise byte 2 declares the reading
count and the loop collects consecutive 6-byte readings from offset 10.
(The data-type byte 0 is only logged and does not affect the result.) -/
def parseGlucoseData (data : List Nat) : List Reading :=
  if data.length < 16 then []
  else parseLoop data (data.getD 2 0) 0

/-! ### Reading aggregator (GlucoseMonitor.js) -/

/-- One `uniqueMap.set(key, reading)` step of `removeDuplicateReadings`:
a JavaScript `Map` keyed by timestamp overwrites the value of an
existing key in place (keeping the key's original insertion position)
and appends a new key at the end. -/
def dedupStep (acc : List Reading) (r : Reading) : List Reading :=
  if acc.any (fun x => x.timestamp == r.timestamp)
  then acc.map (fun x => if x.timestamp == r.timestamp then r else x)
  else acc ++ [r]

/-- `removeDuplicateReadings`: insert every reading into the `Map` in
order; `Array.from(map.values())` returns the values in key-insertion
order. -/
def removeDuplicateReadings (readings : List Reading) : List Reading :=
  readings.foldl dedupStep []

/-- The order imposed by the comparator
`(a, b) => a.timestamp - b.timestamp` of `sortedReadings`:
non-decreasing timestamp. -/
def tsLE (a b : Reading) : Prop := a.timestamp ≤ b.timestamp

instance : DecidableRel tsLE :=
  fun a b => inferInstanceAs (Decidable (a.timestamp ≤ b.timestamp))

instance : IsTotal Reading tsLE := ⟨fun a b => Int.le_total a.timestamp b.timestamp⟩

instance : IsTrans Reading tsLE := ⟨fun _ _ _ h1 h2 => Int.le_trans h1 h2⟩

/-- The milliseconds in 24 hours (`24 * 60 * 60 * 1000`). -/
def dayMs : Int := 86400000

/-- The merge pipeline of `GlucoseMonitor.readGlucoseData`: concatenate
the existing window with the incoming readings, remove duplicate
timestamps, sort by the timestamp comparator, and keep readings with
`timestamp > now - 24h`. `Array.prototype.sort` with this comparator
produces a permutation that is non-decreasing by timestamp; after
deduplication the timestamps are pairwise distinct, so that sorted
permutation is unique and insertion sort models the sort exactly. -/
def mergeReadings (existing incoming : List Reading) (now : Int) : List Reading :=
  let allReadings := existing ++ incoming
  let uniqueReadings := removeDuplicateReadings allReadings
  let sortedReadings := uniqueReadings.insertionSort tsLE
  sortedReadings.filter (fun r => now - dayMs < r.timestamp)

/-! ### Theorems -/

/-- C9: for every `startBlock` and `numBlocks`,
`readMultipleBlocksCommand` clamps `numBlocks` to at most 3 and returns
the 8-byte frame `[0x23, startBlock, numBlocks - 1, 0, 0, 0, 0, 0]`
(bytes stored modulo 256, as a `Uint8Array` does) without any error
path; in particular for `numBlocks = 5` the third frame byte is 2,
encoding the clamped count 3, and never 4 (which would encode 5). -/
theorem readMultipleBlocksCommand_clamps (startBlock numBlocks : Nat) :
    getReadMultipleBlocksCommand startBlock numBlocks =
      [0x23, startBlock % 256, ((((min numBlocks 3 : Nat) : Int) - 1) % 256).toNat,
       0, 0, 0, 0, 0] ∧
    (getReadMultipleBlocksCommand startBlock numBlocks).length = 8 ∧
    (getReadMultipleBlocksCommand startBlock 5).getD 2 0 = 2 ∧
    (getReadMultipleBlocksCommand startBlock 5).getD 2 0 ≠ 4 := by
  refine ⟨?_, rfl, rfl, (by decide : (2 : Nat) ≠ 4)⟩
  have h3 : (if numBlocks > 3 then 3 else numBlocks) = min numBlocks 3 := by
    split <;> omega
  simp only [getReadMultipleBlocksCommand, h3]

/-- C10: only the upper bound of `numBlocks` is clamped; the stored
count byte is `(min(numBlocks, 3) - 1) mod 256`, so for `numBlocks = 0`
the subtraction `numBlocks - 1 = -1` wraps in the `Uint8Array` store and
the third frame byte is 255 for every `startBlock`. -/
theorem readMultipleBlocksCommand_zero_wraps (startBlock : Nat) :
    (getReadMultipleBlocksCommand startBlock 0).getD 2 0 = 255 ∧
    ∀ numBlocks : Nat,
      (getReadMultipleBlocksCommand startBlock numBlocks).getD 2 0 =
        ((((min numBlocks 3 : Nat) : Int) - 1) % 256).toNat := by
  constructor
  · rfl
  · intro numBlocks
    have h3 : (if numBlocks > 3 then 3 else numBlocks) = min numBlocks 3 := by
      split <;> omega
    simp only [getReadMultipleBlocksCommand, h3]
    rfl

/-- C3 counterexample: the substitution table of the MAC transform has
48 entries, not 256, and the lookup wraps modulo the table length: the
state byte 48 is substituted through entry 0 (value 0x63), not through a
direct 256-entry lookup. -/
theorem substByte_table_not_256 :
    sBox.length = 48 ∧ sBox.length ≠ 256 ∧
    substByte 48 = sBox.getD 0 0 ∧ substByte 48 = 0x63 ∧ substByte 0 = 0x63 := by
  decide

/-- C3 amended: the byte substitution step of the MAC computation uses
the 48-entry table wrapped by modulo: the substituted byte for state
value `v` is `sBox[v mod 48]`. -/
theorem transformMACState_subst_mod48 :
    sBox.length = 48 ∧
    ∀ state : List Nat,
      transformMACState state =
        mixStep (state.map (fun v => sBox.getD (v % 48) 0)) :=
  ⟨rfl, fun _ => rfl⟩

/-- `mapIdx` as a map over the index range. -/
theorem mapIdx_eq_range_map (l : List Nat) (f : Nat → Nat → Nat) :
    l.mapIdx f = (List.range l.length).map (fun i => f i (l.getD i 0)) := by
  apply List.ext_getElem
  · simp
  · intro i h1 h2
    have hi : i < l.length := by simpa using h1
    simp [List.getElem?_eq_getElem hi]

/-- `map` as a map over the index range. -/
theorem map_eq_range_map (l : List Nat) (g : Nat → Nat) :
    l.map g = (List.range l.length).map (fun i => g (l.getD i 0)) := by
  apply List.ext_getElem
  · simp
  · intro i h1 h2
    have hi : i < l.length := by simpa using h1
    simp [List.getElem?_eq_getElem hi]

/-- Rotating a 16-element list left by `r < 16` places at index `i` the
element that was at index `(i + r) mod 16`. -/
theorem rotateLeft_eq_range_map (l : List Nat) (r : Nat)
    (hl : l.length = 16) (hr : r < 16) :
    l.rotateLeft r = (List.range 16).map (fun i => l.getD ((i + r) % 16) 0) := by
  have hrot : l.rotateLeft r = l.drop r ++ l.take r := by
    simp only [List.rotateLeft, hl]
    rw [if_neg (by omega), Nat.mod_eq_of_lt (by omega)]
  rw [hrot]
  apply List.ext_getElem
  · simp [hl]
    omega
  · intro i h1 h2
    have hi : i < 16 := by simpa using h2
    rw [List.getElem_map]
    simp only [List.getElem_range]
    rcases Nat.lt_or_ge i (16 - r) with hc | hc
    · rw [List.getElem_append_left (by simp [hl]; omega)]
      have hm : (i + r) % 16 = i + r := Nat.mod_eq_of_lt (by omega)
      rw [List.getElem_drop]
      rw [hm, List.getD_eq_getElem _ _ (by omega)]
      congr 1
      omega
    · rw [List.getElem_append_right (by simp [hl]; omega)]
      have hm : (i + r) % 16 = i + r - 16 := by omega
      rw [List.getElem_take]
      rw [hm, List.getD_eq_getElem _ _ (by omega)]
      congr 1
      simp [hl]
      omega

/-- One round as the specification words it (additive updates via
`mapIdx`, then `rotateLeft`) equals one round as the code computes it,
on any 16-byte key state. -/
theorem claimStep_eq (seed key : List Nat) (r : Nat)
    (hk : key.length = 16) (hr : r < 16) :
    (key.mapIdx
       (fun i b => Nat.xor (b + seed.getD (i % 8) 0) (seed.getD (8 + i % 8) 0) % 256)).rotateLeft r
      = rotateRound r (addMixRound seed key) := by
  rw [mapIdx_eq_range_map, hk]
  rw [rotateLeft_eq_range_map _ r (by simp) hr]
  rfl

/-- C4: for each discriminator (0x01 for the encryption key, 0x02 for
the decryption key) and every 16-byte seed, `_deriveKey` computes
exactly the claimed pipeline: initialise `key[i] = seed[i] XOR disc`,
then 4 rounds that first apply all 16 additive updates
`key[i] = ((key[i] + seed[i mod 8]) XOR seed[8 + (i mod 8)]) mod 256`
and only afterwards rotate the whole 16-byte array cyclically by the
round index. -/
theorem deriveKey_matches_claim (kt : KeyType) (seed : List Nat)
    (h : seed.length = 16) :
    deriveKey seed kt = deriveKeyClaim seed (keyTypeValue kt) := by
  unfold deriveKey deriveKeyClaim
  rw [show (List.range 4) = [0, 1, 2, 3] from rfl]
  simp only [List.foldl_cons, List.foldl_nil]
  rw [map_eq_range_map seed, h]
  rw [claimStep_eq seed _ 0 (by simp) (by omega)]
  rw [claimStep_eq seed _ 1 (by simp [rotateRound]) (by omega)]
  rw [claimStep_eq seed _ 2 (by simp [rotateRound]) (by omega)]
  rw [claimStep_eq seed _ 3 (by simp [rotateRound]) (by omega)]

/-- Witness for C4 at the concrete seed `[0, 1, ..., 15]` and both
discriminators. -/
theorem deriveKey_matches_claim_witness :
    deriveKey (List.range 16) .encrypt = deriveKeyClaim (List.range 16) 1 ∧
    deriveKey (List.range 16) .decrypt = deriveKeyClaim (List.range 16) 2 :=
  ⟨deriveKey_matches_claim .encrypt (List.range 16) (by decide),
   deriveKey_matches_claim .decrypt (List.range 16) (by decide)⟩

/-- A derived key always has 16 bytes. -/
theorem deriveKey_length (seed : List Nat) (kt : KeyType) :
    (deriveKey seed kt).length = 16 := by
  unfold deriveKey
  rw [show (List.range 4) = [0, 1, 2, 3] from rfl]
  simp only [List.foldl_cons, List.foldl_nil]
  simp [rotateRound]

/-- C1: key generation is a pure function of the identifier — equal
8-byte identifiers give bit-identical `KeyPair`s — and on a valid 8-byte
identifier it succeeds with 16-byte encryption and decryption keys. -/
theorem generateKeys_deterministic :
    (∀ uid1 uid2 : List Nat, uid1 = uid2 → generateKeys uid1 = generateKeys uid2) ∧
    (∀ uid : List Nat, uid.length = 8 →
      ∃ kp : KeyPair, generateKeys uid = some kp ∧
        kp.encryptionKey.length = 16 ∧ kp.decryptionKey.length = 16) := by
  constructor
  · intro uid1 uid2 h
    rw [h]
  · intro uid h
    refine ⟨_, by rw [generateKeys, if_pos h], ?_, ?_⟩ <;>
      exact deriveKey_length _ _

/-- Witness for C1 at the identifier `[1, 2, 3, 4, 5, 6, 7, 8]`. -/
theorem generateKeys_deterministic_witness :
    generateKeys [1, 2, 3, 4, 5, 6, 7, 8] = generateKeys [1, 2, 3, 4, 5, 6, 7, 8] ∧
    ∃ kp : KeyPair, generateKeys [1, 2, 3, 4, 5, 6, 7, 8] = some kp ∧
      kp.encryptionKey.length = 16 ∧ kp.decryptionKey.length = 16 :=
  ⟨generateKeys_deterministic.1 [1, 2, 3, 4, 5, 6, 7, 8] [1, 2, 3, 4, 5, 6, 7, 8] rfl,
   generateKeys_deterministic.2 [1, 2, 3, 4, 5, 6, 7, 8] (by decide)⟩

/-- The reading loop of `_parseGlucoseData` collects exactly the
readings whose full 6-byte slot fits in the buffer, capped by the
remaining declared count. -/
theorem parseLoop_eq (data : List Nat) (n : Nat) :
    ∀ i, parseLoop data n i =
      (List.range (min n ((data.length - 10) / 6 - i))).map
        (fun t => slotReading data (10 + (i + t) * 6)) := by
  induction n with
  | zero => intro i; simp [parseLoop]
  | succ n ih =>
    intro i
    rw [parseLoop]
    split
    · rename_i hbr
      have h0 : min (n + 1) ((data.length - 10) / 6 - i) = 0 := by omega
      rw [h0]
      simp
    · rename_i hbr
      have hmin : min (n + 1) ((data.length - 10) / 6 - i) =
          min n ((data.length - 10) / 6 - (i + 1)) + 1 := by omega
      rw [hmin, List.range_succ_eq_map, List.map_cons, List.map_map]
      rw [ih (i + 1)]
      have hfe : ∀ t : Nat, 10 + (i + 1 + t) * 6 = 10 + (i + (t + 1)) * 6 := by
        intro t; ring
      simp only [Function.comp_def, Nat.succ_eq_add_one, Nat.add_zero, hfe]

/-- C8: radio-payload decoding returns an empty list, without any
error, for every buffer shorter than 16 bytes; for a buffer of at least
16 bytes it returns exactly the readings of the declared count (byte 2)
whose 6-byte slots fit entirely inside the buffer, stopping early when a
slot would run past the end. -/
theorem parseGlucoseData_soft (data : List Nat) :
    (data.length < 16 → parseGlucoseData data = []) ∧
    (16 ≤ data.length →
      parseGlucoseData data =
        (List.range (min (data.getD 2 0) ((data.length - 10) / 6))).map
          (fun i => slotReading data (10 + i * 6))) := by
  constructor
  · intro h
    rw [parseGlucoseData, if_pos h]
  · intro h
    rw [parseGlucoseData, if_neg (by omega)]
    rw [parseLoop_eq data _ 0]
    simp only [Nat.sub_zero, Nat.zero_add]

/-- Witness for C8: a 9-byte buffer decodes to nothing; a 16-byte buffer
declaring 3 readings decodes only the single reading that fits. -/
theorem parseGlucoseData_soft_witness :
    parseGlucoseData [1, 2, 3, 4, 5, 6, 7, 8, 9] = [] ∧
    parseGlucoseData [1, 0, 3, 0, 0, 0, 0, 0, 0, 0, 5, 0, 0, 0, 210, 0] =
      (List.range (min ([1, 0, 3, 0, 0, 0, 0, 0, 0, 0, 5, 0, 0, 0, 210, 0].getD 2 0)
          (([1, 0, 3, 0, 0, 0, 0, 0, 0, 0, 5, 0, 0, 0, 210, 0].length - 10) / 6))).map
        (fun i => slotReading [1, 0, 3, 0, 0, 0, 0, 0, 0, 0, 5, 0, 0, 0, 210, 0] (10 + i * 6)) :=
  ⟨(parseGlucoseData_soft [1, 2, 3, 4, 5, 6, 7, 8, 9]).1 (by decide),
   (parseGlucoseData_soft [1, 0, 3, 0, 0, 0, 0, 0, 0, 0, 5, 0, 0, 0, 210, 0]).2 (by decide)⟩

/-- The slot loop of `_extractHistoricalReadings` agrees with the
specification-side per-slot filter whenever every remaining slot lies
inside the buffer. -/
theorem histLoop_eq (buffer : List Nat) (n : Nat) :
    ∀ i, 124 + (i + n) * 6 ≤ buffer.length →
      histLoop buffer n i =
        (List.range n).filterMap (fun j => histSlotSpec buffer (i + j)) := by
  induction n with
  | zero => intro i _; simp [histLoop]
  | succ n ih =>
    intro i h
    rw [histLoop, if_neg (by omega)]
    rw [List.range_succ_eq_map, List.filterMap_cons]
    have hidx : ∀ j : Nat, i + 1 + j = i + (j + 1) := by intro j; ring
    by_cases h1 : readU32LE buffer (124 + i * 6) = 0 ∨
        readU32LE buffer (124 + i * 6) > 4294967295
    · rw [if_pos h1, ih (i + 1) (by omega)]
      have hs : histSlotSpec buffer (i + 0) = none := by
        rw [histSlotSpec, if_pos]
        rcases h1 with h1 | h1
        · exact Or.inl (by simpa using h1)
        · exact Or.inr (Or.inl (by simpa using h1))
      rw [hs, List.filterMap_map]
      simp only [Function.comp_def, Nat.succ_eq_add_one, hidx]
    · rw [if_neg h1]
      by_cases h2 : readU16LE buffer (124 + i * 6 + 4) = 0
      · rw [if_pos h2, ih (i + 1) (by omega)]
        have hs : histSlotSpec buffer (i + 0) = none := by
          rw [histSlotSpec, if_pos]
          exact Or.inr (Or.inr (by simpa using h2))
        rw [hs, List.filterMap_map]
        simp only [Function.comp_def, Nat.succ_eq_add_one, hidx]
      · rw [if_neg h2, ih (i + 1) (by omega)]
        have hs : histSlotSpec buffer (i + 0) =
            some (slotReading buffer (124 + i * 6)) := by
          rw [histSlotSpec, if_neg]
          · simp
          · simp only [Nat.add_zero]
            push_neg
            refine ⟨?_, ?_, ?_⟩
            · rcases not_or.mp h1 with ⟨ha, _⟩; exact ha
            · rcases not_or.mp h1 with ⟨_, hb⟩; omega
            · exact h2
        rw [hs, List.filterMap_map]
        simp only [Function.comp_def, Nat.succ_eq_add_one, hidx, Nat.add_zero]

/-- C6: on a full tag-memory buffer (at least 316 bytes, covering all 32
slots), `historicalReadings` is exactly the slot-order sequence of the
32 fixed 6-byte slots at offset 124, where a slot with timestamp 0 or
out of range, or with raw glucose 0, is skipped without error. -/
theorem extractHistoricalReadings_spec (buffer : List Nat)
    (h : 316 ≤ buffer.length) :
    extractHistoricalReadings buffer = historicalReadingsSpec buffer := by
  rw [extractHistoricalReadings, historicalReadingsSpec]
  rw [histLoop_eq buffer 32 0 (by omega)]
  simp only [Nat.zero_add]

/-- Witness for C6 on a concrete 344-byte (43-block) buffer. -/
theorem extractHistoricalReadings_spec_witness :
    extractHistoricalReadings (List.replicate 344 0) =
      historicalReadingsSpec (List.replicate 344 0) :=
  extractHistoricalReadings_spec (List.replicate 344 0)
    (by rw [List.length_replicate]; omega)

/-- C5 counterexample: a 9-byte ciphertext is not block-aligned, yet
`decrypt` returns a successful result — never a `MalformedCiphertext`
error — because the source performs no length validation (here with the
identity block function; the length-checking behaviour claimed would be
in the adapter itself, before any block cipher runs). -/
theorem decrypt_not_malformed_at_9 :
    ([1, 2, 3, 4, 5, 6, 7, 8, 9] : List Nat).length % 16 ≠ 0 ∧
    decrypt [1, 2, 3, 4, 5, 6, 7, 8, 9] (fun b => b) =
      Except.ok [1, 2, 3, 4, 5, 6, 7, 8, 9] ∧
    decrypt [1, 2, 3, 4, 5, 6, 7, 8, 9] (fun b => b) ≠
      Except.error CipherError.malformedCiphertext := by
  refine ⟨by decide, ?_, by simp [decrypt]⟩
  rw [decrypt]
  rw [toBlocks]
  norm_num
  rw [toBlocks]
  simp [cbcDecryptBlocks, xorBlock, zeroIV]
  decide

/-- C5 amended: `decrypt` never raises `MalformedCiphertext` (or any
other error) for any input: every buffer, of any length, is forwarded to
the CBC layer and a successful result is returned. -/
theorem decrypt_never_fails (data : List Nat) (D : List Nat → List Nat) :
    decrypt data D ≠ Except.error CipherError.malformedCiphertext ∧
    ∃ out, decrypt data D = Except.ok out :=
  ⟨by simp [decrypt], ⟨_, rfl⟩⟩

/-- XOR of a block with the same block twice recovers the original. -/
theorem xorBlock_cancel : ∀ (a b : List Nat), b.length ≤ a.length →
    xorBlock a (xorBlock a b) = b
  | _, [], _ => by simp [xorBlock]
  | [], b :: bs, h => by simp at h
  | x :: a, y :: b, h => by
    simp only [xorBlock, List.zipWith_cons_cons]
    have hxy : Nat.xor x (Nat.xor x y) = y := Nat.xor_cancel_left x y
    rw [hxy]
    have := xorBlock_cancel a b (by simpa using h)
    simp only [xorBlock] at this
    rw [this]

theorem xorBlock_length (a b : List Nat) :
    (xorBlock a b).length = min a.length b.length := by
  simp [xorBlock]

/-- CBC encryption of 16-byte blocks yields 16-byte blocks when the
block cipher preserves block length. -/
theorem cbcEncryptBlocks_all16 (E : List Nat → List Nat)
    (hLen : ∀ b, b.length = 16 → (E b).length = 16) :
    ∀ (bs : List (List Nat)) (prev : List Nat),
      (∀ b ∈ bs, b.length = 16) → prev.length = 16 →
      ∀ c ∈ cbcEncryptBlocks E prev bs, c.length = 16
  | [], prev, _, _ => by simp [cbcEncryptBlocks]
  | b :: bs, prev, hall, hprev => by
    have hb : b.length = 16 := hall b (by simp)
    have hc : (E (xorBlock prev b)).length = 16 :=
      hLen _ (by rw [xorBlock_length, hprev, hb]; simp)
    intro c hcmem
    rw [cbcEncryptBlocks] at hcmem
    rcases List.mem_cons.mp hcmem with rfl | hcmem
    · exact hc
    · exact cbcEncryptBlocks_all16 E hLen bs _
        (fun x hx => hall x (List.mem_cons_of_mem _ hx)) hc c hcmem

theorem cbcEncryptBlocks_length (E : List Nat → List Nat) :
    ∀ (bs : List (List Nat)) (prev : List Nat),
      (cbcEncryptBlocks E prev bs).length = bs.length
  | [], _ => by simp [cbcEncryptBlocks]
  | b :: bs, prev => by
    rw [cbcEncryptBlocks]
    simp only [List.length_cons]
    rw [cbcEncryptBlocks_length E bs]

/-- CBC decryption with the inverse block cipher undoes CBC encryption
block by block, for every chaining value. -/
theorem cbc_roundtrip (E D : List Nat → List Nat)
    (hInv : ∀ b, b.length = 16 → D (E b) = b)
    (hLen : ∀ b, b.length = 16 → (E b).length = 16) :
    ∀ (bs : List (List Nat)) (prev : List Nat),
      (∀ b ∈ bs, b.length = 16) → prev.length = 16 →
      cbcDecryptBlocks D prev (cbcEncryptBlocks E prev bs) = bs
  | [], prev, _, _ => by simp [cbcEncryptBlocks, cbcDecryptBlocks]
  | b :: bs, prev, hall, hprev => by
    have hb : b.length = 16 := hall b (by simp)
    have hxlen : (xorBlock prev b).length = 16 := by
      rw [xorBlock_length, hprev, hb]; simp
    have hc : (E (xorBlock prev b)).length = 16 := hLen _ hxlen
    rw [cbcEncryptBlocks, cbcDecryptBlocks]
    rw [hInv _ hxlen]
    rw [xorBlock_cancel prev b (by omega)]
    rw [cbc_roundtrip E D hInv hLen bs _
      (fun x hx => hall x (List.mem_cons_of_mem _ hx)) hc]

/-- Splitting a block-aligned buffer produces 16-byte blocks whose
concatenation is the buffer. -/
theorem toBlocks_aligned (data : List Nat) (h : data.length % 16 = 0) :
    (∀ b ∈ toBlocks data, b.length = 16) ∧ (toBlocks data).flatten = data := by
  induction data using toBlocks.induct with
  | case1 => rw [toBlocks]; simp
  | case2 data hne ih =>
    have hpos : 0 < data.length := List.length_pos.mpr hne
    have h16 : 16 ≤ data.length := by omega
    have hdrop : (data.drop 16).length % 16 = 0 := by
      rw [List.length_drop]; omega
    obtain ⟨ihall, ihflat⟩ := ih hdrop
    have hrep : 16 - data.length = 0 := by omega
    rw [toBlocks, if_neg hne]
    constructor
    · intro b hb
      rcases List.mem_cons.mp hb with rfl | hb
      · rw [hrep]
        simp [List.length_take]
        omega
      · exact ihall b hb
    · rw [List.flatten_cons, ihflat, hrep]
      simp [List.take_append_drop]

/-- Splitting the concatenation of 16-byte blocks recovers the blocks. -/
theorem toBlocks_flatten : ∀ (bs : List (List Nat)),
    (∀ b ∈ bs, b.length = 16) → toBlocks bs.flatten = bs
  | [], _ => by rw [toBlocks]; simp
  | b :: bs, hall => by
    have hb : b.length = 16 := hall b (by simp)
    have hne : b ++ bs.flatten ≠ [] := by
      intro hc
      have := congrArg List.length hc
      simp [hb] at this
    rw [List.flatten_cons, toBlocks, if_neg hne]
    have htake : (b ++ bs.flatten).take 16 = b := by
      rw [show (16 : Nat) = b.length from hb.symm]
      exact List.take_left b bs.flatten
    have hdrop : (b ++ bs.flatten).drop 16 = bs.flatten := by
      rw [show (16 : Nat) = b.length from hb.symm]
      exact List.drop_left b bs.flatten
    have hrep : 16 - (b ++ bs.flatten).length = 0 := by
      simp [hb]
    rw [htake, hdrop, hrep]
    simp only [List.replicate, List.append_nil]
    rw [toBlocks_flatten bs (fun x hx => hall x (List.mem_cons_of_mem _ hx))]

theorem flatten_length_all16 : ∀ (bs : List (List Nat)),
    (∀ b ∈ bs, b.length = 16) → bs.flatten.length = 16 * bs.length
  | [], _ => by simp
  | b :: bs, hall => by
    rw [List.flatten_cons]
    simp only [List.length_append, List.length_cons]
    rw [hall b (by simp),
      flatten_length_all16 bs (fun x hx => hall x (List.mem_cons_of_mem _ hx))]
    ring

/-- C2: for every block-aligned plaintext, decrypting the encryption
under the same key recovers the plaintext exactly. The AES-128 block
function under the session key and its inverse are abstracted as `E` and
`D` (they live in the external crypto-js dependency); the CBC chaining
with the fixed zero IV and no padding is as configured by
`Libre2Encryption.encrypt`/`decrypt`. -/
theorem encrypt_decrypt_roundtrip (E D : List Nat → List Nat)
    (hInv : ∀ b, b.length = 16 → D (E b) = b)
    (hLen : ∀ b, b.length = 16 → (E b).length = 16)
    (p : List Nat) (hp : p.length % 16 = 0) :
    decrypt (encrypt p E) D = Except.ok p := by
  obtain ⟨hall, hflat⟩ := toBlocks_aligned p hp
  have hziv : (zeroIV : List Nat).length = 16 := by simp [zeroIV]
  have hcall : ∀ c ∈ cbcEncryptBlocks E zeroIV (toBlocks p), c.length = 16 :=
    cbcEncryptBlocks_all16 E hLen (toBlocks p) zeroIV hall hziv
  have hplen : p.length = 16 * (toBlocks p).length := by
    conv_lhs => rw [← hflat]
    exact flatten_length_all16 _ hall
  have hclen : (cbcEncryptBlocks E zeroIV (toBlocks p)).flatten.length = p.length := by
    rw [flatten_length_all16 _ hcall, cbcEncryptBlocks_length, ← hplen]
  have henc : encrypt p E = (cbcEncryptBlocks E zeroIV (toBlocks p)).flatten := by
    rw [encrypt, ← hclen, List.take_length]
  rw [decrypt, henc]
  rw [toBlocks_flatten _ hcall]
  rw [cbc_roundtrip E D hInv hLen (toBlocks p) zeroIV hall hziv]
  rw [hflat, hclen, List.take_length]

/-- Witness for C2 with the identity block cipher and a 32-byte
(2-block) plaintext. -/
theorem encrypt_decrypt_roundtrip_witness :
    decrypt (encrypt (List.replicate 32 7) (fun b => b)) (fun b => b) =
      Except.ok (List.replicate 32 7) :=
  encrypt_decrypt_roundtrip (fun b => b) (fun b => b)
    (fun _ _ => rfl) (fun _ hb => hb) (List.replicate 32 7)
    (by rw [List.length_replicate])


/-- Invariant of the `Map`-insertion fold: after processing any prefix,
the accumulated values have pairwise-distinct timestamps and each one is
the last reading with its timestamp among those processed so far. -/
theorem dedup_go : ∀ (rest acc processed : List Reading),
    (acc.map Reading.timestamp).Nodup →
    (∀ x ∈ acc,
      (processed.filter (fun y => y.timestamp == x.timestamp)).getLast? = some x) →
    ((rest.foldl dedupStep acc).map Reading.timestamp).Nodup ∧
    ∀ x ∈ rest.foldl dedupStep acc,
      ((processed ++ rest).filter (fun y => y.timestamp == x.timestamp)).getLast? = some x
  | [], acc, processed, h1, h2 => by
    rw [List.foldl_nil, List.append_nil]
    exact ⟨h1, h2⟩
  | r :: rest, acc, processed, h1, h2 => by
    rw [List.foldl_cons]
    rw [show processed ++ r :: rest = (processed ++ [r]) ++ rest by simp]
    by_cases hany : acc.any (fun x => x.timestamp == r.timestamp) = true
    · rw [show dedupStep acc r =
          acc.map (fun x => if x.timestamp == r.timestamp then r else x) from
        if_pos hany]
      apply dedup_go rest _ (processed ++ [r])
      · have hcomp :
            (Reading.timestamp ∘ fun x => if x.timestamp == r.timestamp then r else x) =
              Reading.timestamp := by
          funext x
          simp only [Function.comp_apply]
          by_cases hb : x.timestamp == r.timestamp
          · rw [if_pos hb]
            exact (beq_iff_eq.mp hb).symm
          · rw [if_neg hb]
        rw [List.map_map, hcomp]
        exact h1
      · intro x hx
        rcases List.mem_map.mp hx with ⟨x0, hx0mem, rfl⟩
        by_cases hb : x0.timestamp == r.timestamp
        · rw [if_pos hb, List.filter_append]
          rw [show List.filter (fun y => y.timestamp == r.timestamp) [r] = [r] by simp]
          exact List.getLast?_concat _
        · rw [if_neg hb, List.filter_append]
          rw [show List.filter (fun y => y.timestamp == x0.timestamp) [r] = [] by
            have hfr : (r.timestamp == x0.timestamp) = false := by
              rw [beq_eq_false_iff_ne]
              intro hc
              exact hb (beq_iff_eq.mpr hc.symm)
            simp [List.filter_singleton, hfr]]
          rw [List.append_nil]
          exact h2 x0 hx0mem
    · rw [show dedupStep acc r = acc ++ [r] from if_neg hany]
      have hnotin : ∀ x ∈ acc, (x.timestamp == r.timestamp) = false := by
        intro x hx
        rcases Bool.eq_false_or_eq_true (x.timestamp == r.timestamp) with ht | hf
        · exact absurd (List.any_eq_true.mpr ⟨x, hx, ht⟩) hany
        · exact hf
      apply dedup_go rest _ (processed ++ [r])
      · rw [List.map_append]
        apply List.Nodup.append h1 (by simp)
        intro a ha hbmem
        rcases List.mem_map.mp ha with ⟨x, hxmem, rfl⟩
        have hne := beq_eq_false_iff_ne.mp (hnotin x hxmem)
        simp only [List.map_cons, List.map_nil, List.mem_singleton] at hbmem
        exact hne hbmem
      · intro x hx
        rcases List.mem_append.mp hx with hx | hx
        · rw [List.filter_append]
          rw [show List.filter (fun y => y.timestamp == x.timestamp) [r] = [] by
            have hne := beq_eq_false_iff_ne.mp (hnotin x hx)
            have hfr : (r.timestamp == x.timestamp) = false := by
              rw [beq_eq_false_iff_ne]
              intro hc
              exact hne hc.symm
            simp [List.filter_singleton, hfr]]
          rw [List.append_nil]
          exact h2 x hx
        · rw [show x = r by simpa using hx]
          rw [List.filter_append]
          rw [show List.filter (fun y => y.timestamp == r.timestamp) [r] = [r] by simp]
          exact List.getLast?_concat _



/-- `removeDuplicateReadings` has pairwise-distinct timestamps and keeps
the last-seen reading for each timestamp. -/
theorem removeDuplicateReadings_spec (rs : List Reading) :
    ((removeDuplicateReadings rs).map Reading.timestamp).Nodup ∧
    ∀ x ∈ removeDuplicateReadings rs,
      (rs.filter (fun y => y.timestamp == x.timestamp)).getLast? = some x := by
  have h := dedup_go rs [] [] (by simp) (by simp)
  rw [List.nil_append] at h
  exact h

/-- C7: for every existing window, incoming reading list and time `now`,
the merge pipeline returns a window with pairwise-distinct timestamps
(keeping the last-seen value for a duplicated timestamp), sorted in
non-decreasing timestamp order, with no entry at or before
`now - 24 hours`. -/
theorem mergeReadings_window (existing incoming : List Reading) (now : Int) :
    ((mergeReadings existing incoming now).map Reading.timestamp).Nodup ∧
    List.Pairwise (fun a b : Reading => a.timestamp ≤ b.timestamp)
      (mergeReadings existing incoming now) ∧
    (∀ r ∈ mergeReadings existing incoming now, ¬(r.timestamp ≤ now - dayMs)) ∧
    (∀ r ∈ mergeReadings existing incoming now,
      ((existing ++ incoming).filter
        (fun y => y.timestamp == r.timestamp)).getLast? = some r) := by
  obtain ⟨hnd, hlast⟩ := removeDuplicateReadings_spec (existing ++ incoming)
  have hperm : List.Perm
      ((removeDuplicateReadings (existing ++ incoming)).insertionSort tsLE)
      (removeDuplicateReadings (existing ++ incoming)) :=
    List.perm_insertionSort tsLE _
  have hsorted : List.Sorted tsLE
      ((removeDuplicateReadings (existing ++ incoming)).insertionSort tsLE) :=
    List.sorted_insertionSort tsLE _
  have hdef : mergeReadings existing incoming now =
      ((removeDuplicateReadings (existing ++ incoming)).insertionSort tsLE).filter
        (fun r => now - dayMs < r.timestamp) := rfl
  have hsub := List.filter_sublist
    (p := fun r : Reading => decide (now - dayMs < r.timestamp))
    ((removeDuplicateReadings (existing ++ incoming)).insertionSort tsLE)
  refine ⟨?_, ?_, ?_, ?_⟩
  · rw [hdef]
    have h1 :
        (List.map Reading.timestamp
          (List.insertionSort tsLE (removeDuplicateReadings (existing ++ incoming)))).Nodup :=
      ((hperm.map Reading.timestamp).nodup_iff).mpr hnd
    exact List.Nodup.sublist (hsub.map Reading.timestamp) h1
  · rw [hdef]
    exact List.Pairwise.sublist hsub hsorted
  · intro r hr
    rw [hdef] at hr
    have hp := (List.mem_filter.mp hr).2
    have hlt : now - dayMs < r.timestamp := of_decide_eq_true hp
    omega
  · intro r hr
    rw [hdef] at hr
    have hmem : r ∈ (removeDuplicateReadings (existing ++ incoming)).insertionSort tsLE :=
      List.mem_of_mem_filter hr
    exact hlast r (hperm.mem_iff.mp hmem)



/-- Witness for C7 on concrete windows sharing the timestamp 2000 with
different values, with `now` chosen so the 24-hour cutoff is 1500. -/
theorem mergeReadings_window_witness :
    ¬((Reading.mk 2000 7).timestamp ≤ 86401500 - dayMs) ∧
    (([Reading.mk 1000 5, Reading.mk 2000 6] ++
        [Reading.mk 2000 7, Reading.mk 500 3]).filter
      (fun y => y.timestamp == (Reading.mk 2000 7).timestamp)).getLast? =
        some (Reading.mk 2000 7) :=
  ⟨(mergeReadings_window [Reading.mk 1000 5, Reading.mk 2000 6]
      [Reading.mk 2000 7, Reading.mk 500 3] 86401500).2.2.1
      (Reading.mk 2000 7) (by decide),
   (mergeReadings_window [Reading.mk 1000 5, Reading.mk 2000 6]
      [Reading.mk 2000 7, Reading.mk 500 3] 86401500).2.2.2
      (Reading.mk 2000 7) (by decide)⟩


end Libre2
